import Mathlib

/-!
# Verification of `betareduce` core (`betareduce/_core.py`)

A shallow embedding of the package-building core: Python strings are
`List Char`, the ZIP sink is a list of written entries, exceptions are
`Except`, and the `try/finally` of the temporary-directory context
manager is modelled by explicit outcome passing.
-/

/-- Python strings are modelled as lists of characters. -/
abbrev Str := List Char

/-- Convert a Lean string literal into the `Str` model. -/
def str (s : String) : Str := s.toList

/-- Python `s.startswith(pre)`. -/
def startswith (pre s : Str) : Bool := pre.isPrefixOf s

/-- Python `s.endswith(suf)`. -/
def endswith (suf s : Str) : Bool := suf.isSuffixOf s

/-- Python `s.split(c)` for a single-character separator: splitting the
empty string yields `[""]`, and separators at the ends yield empty parts. -/
def splitOnChar (c : Char) : Str → List Str
  | [] => [[]]
  | x :: xs =>
    if x = c then [] :: splitOnChar c xs
    else
      match splitOnChar c xs with
      | [] => [[x]]
      | r :: rs => (x :: r) :: rs

/-- The `".."` path component. -/
def dotdot : Str := ['.', '.']

/-- The component loop of POSIX `os.path.normpath`: drop empty and `"."`
components, and let a `".."` component cancel a preceding real component
(except at an unrooted start or after an uncancelled `".."`). -/
def normFold (initialSlashes : Nat) : List Str → List Str → List Str
  | acc, [] => acc
  | acc, comp :: rest =>
    let acc' :=
      if comp = [] ∨ comp = ['.'] then acc
      else if comp ≠ dotdot ∨ (initialSlashes = 0 ∧ acc = []) ∨
              acc.getLast? = some dotdot then acc ++ [comp]
      else if acc ≠ [] then acc.dropLast
      else acc
    normFold initialSlashes acc' rest

/-- POSIX `os.path.normpath`: empty path becomes `"."`, one or two (but
not three or more) leading slashes are preserved, components are
normalized by `normFold`, and an all-cancelled path becomes `"."`. -/
def normpath (path : Str) : Str :=
  if path = [] then ['.']
  else
    let initialSlashes : Nat :=
      if startswith ['/'] path then
        if startswith ['/', '/'] path ∧ ¬ startswith ['/', '/', '/'] path
        then 2 else 1
      else 0
    let comps := splitOnChar '/' path
    let joined := List.intercalate ['/'] (normFold initialSlashes [] comps)
    let p := List.replicate initialSlashes '/' ++ joined
    if p = [] then ['.'] else p

/-- Python `s.replace(old, '', 1)`: remove the first occurrence of `old`
from `s` (no change when `old` does not occur; removing the empty string
is the identity, as in Python with an empty replacement). -/
def removeFirst (old : Str) : Str → Str
  | [] => []
  | x :: xs =>
    if old.isPrefixOf (x :: xs) then (x :: xs).drop old.length
    else x :: removeFirst old xs

/-- `LambdaPackage.relativize_path`: normalize the path, strip the first
occurrence of `root` when the normalized path starts with it, then strip
a single leading slash when present. -/
def relativize_path (root path : Str) : Str :=
  let p := normpath path
  let p' := if startswith root p then removeFirst root p else p
  if startswith ['/'] p' then p'.drop 1 else p'

/-- Helper for `rpartition`: locate the last occurrence of `c`,
returning the parts before and after it, or `none` when absent. -/
def rpartitionAux (c : Char) : Str → Option (Str × Str)
  | [] => none
  | x :: xs =>
    match rpartitionAux c xs with
    | some (b, a) => some (x :: b, a)
    | none => if x = c then some ([], xs) else none

/-- Python `s.rpartition(c)`: split around the last occurrence of `c`;
when `c` is absent return `("", "", s)`. -/
def rpartition (c : Char) (s : Str) : Str × Str × Str :=
  match rpartitionAux c s with
  | some (b, a) => (b, [c], a)
  | none => ([], [], s)

/-- The errors the core can raise: the `ValueError` for an invalid FQPN,
a `pip install` failure, and a failure of `shutil.rmtree` during
cleanup. -/
inductive Err : Type
  | invalidFQPN (fqpn : Str)
  | installError
  | rmtreeError
deriving DecidableEq, Repr

/-- `LambdaPackage.split_fqpn`: split on the last dot and reject the
empty string, strings starting or ending with a dot, and strings with no
dot at all. -/
def split_fqpn (fqpn : Str) : Except Err (Str × Str) :=
  let (module_name, dot, callable_name) := rpartition '.' fqpn
  if fqpn = [] ∨ endswith ['.'] fqpn = true ∨ startswith ['.'] fqpn = true ∨
     dot = [] then
    .error (.invalidFQPN fqpn)
  else
    .ok (module_name, callable_name)

/-- `LambdaPackage.fqpn_to_lambda_module_name`: replace every dot with an
underscore. -/
def fqpn_to_lambda_module_name (module_fqpn : Str) : Str :=
  module_fqpn.map (fun c => if c = '.' then '_' else c)

/-- `LambdaPackage.generate_lambda_handler_module`: the shim source text
`"from <module_fqpn> import <callable_name>\n"` (the `textwrap.dedent` in
the source is the identity here because the first line of the template
carries no leading whitespace). -/
def generate_lambda_handler_module (module_fqpn callable_name : Str) : Str :=
  str "from " ++ module_fqpn ++ str " import " ++ callable_name ++ ['\n']

/-- One entry written into the ZIP sink: `zip_obj.write(filename, arcname)`
for a staged file on disk, or `zip_obj.writestr(name, content)` for an
in-memory member. `attr` records permission metadata explicitly attached
via a `ZipInfo`; the source passes a plain string name, so it is `none`. -/
inductive ZipEntry : Type
  | file (filename : Str) (arcname : Str)
  | strEntry (name : Str) (content : Str) (attr : Option Nat)
deriving DecidableEq, Repr

/-- `LambdaPackage.write_lambda_handler_to_fileobj`: split the FQPN
(propagating its `ValueError`), flatten the module name, and write the
generated shim source under `<flattened>.py` with no explicit permission
metadata. -/
def write_lambda_handler_to_fileobj (fqpn : Str) : Except Err ZipEntry :=
  match split_fqpn fqpn with
  | .error e => .error e
  | .ok (real_module_name, callable_name) =>
    let module_name := fqpn_to_lambda_module_name real_module_name
    let filename := module_name ++ str ".py"
    let module_source :=
      generate_lambda_handler_module real_module_name callable_name
    .ok (ZipEntry.strEntry filename module_source none)

/-- The staged-file entries `to_zipfile` writes: each file surviving the
filter, in input order, under its relativized archive name. -/
def stagedEntries (root : Str) (files : List Str) (filt : Str → Bool) :
    List ZipEntry :=
  (files.filter filt).map (fun f => ZipEntry.file f (relativize_path root f))

/-- The observable outcome of `to_zipfile` on the ZIP sink: the entries
written (in order) and the error, if any, raised after them. -/
structure ZipResult : Type where
  written : List ZipEntry
  error : Option Err
deriving DecidableEq, Repr

/-- `LambdaPackage.to_zipfile`: write every file under the root that the
filter accepts, then write the lambda-handler shim; an invalid FQPN
raises only at the shim step, after the staged entries have already been
written to the sink. `files` stands for the `os.walk` enumeration of the
staging root. -/
def to_zipfile (root fqpn : Str) (files : List Str) (filt : Str → Bool) :
    ZipResult :=
  let staged := stagedEntries root files filt
  match write_lambda_handler_to_fileobj fqpn with
  | .error e => { written := staged, error := some e }
  | .ok shim => { written := staged ++ [shim], error := none }

/-- Modelled from the spec: `LambdaPackage.BINARY_SUFFIXES` is computed
at import time from `imp.get_suffixes()` — host-platform data that is
not part of the source tree. Per §4.3 the set is the platform's
shared-object C-extension suffixes; for CPython on POSIX these are
`".so"` and `"module.so"`. -/
def BINARY_SUFFIXES : List Str := [str ".so", str "module.so"]

/-- `LambdaPackage.not_extension_module`: `False` exactly when the
filename ends with one of the `BINARY_SUFFIXES` (Python's
`str.endswith` on a tuple). -/
def not_extension_module (filename : Str) : Bool :=
  if BINARY_SUFFIXES.any (fun s => endswith s filename) then false
  else true

/-- The observable behaviour of one `automatic_tempdir` use: the
directory handed out, whether `shutil.rmtree` was invoked, the messages
logged (as the format strings the source passes), and the outcome that
reaches the caller. -/
structure TempdirRun (ε α : Type) : Type where
  tempdir : Str
  rmtreeCalled : Bool
  logs : List String
  outcome : Except ε α

/-- `automatic_tempdir`: `mkdtemp`, yield, and in a `finally` block log
and call `rmtree`. Python `try/finally` semantics: the `finally` body
always runs, and an exception it raises propagates in place of any
exception already in flight from the body. `body` is the outcome of the
managed block and `rmtreeResult` the outcome of the `rmtree` call. -/
def automatic_tempdir (tempdir : Str) (body : Except ε α)
    (rmtreeResult : Except ε Unit) : TempdirRun ε α :=
  { tempdir := tempdir
    rmtreeCalled := true
    logs := ["creating temporary directory %r", "removing temporary directory %r"]
    outcome :=
      match rmtreeResult with
      | .error e => .error e
      | .ok _ => body }

/-- `passthrough`: yield the given path unaltered; no cleanup of any
kind runs on exit. -/
def passthrough (path : Str) (body : Except ε α) : TempdirRun ε α :=
  { tempdir := path, rmtreeCalled := false, logs := [], outcome := body }

/-- The body of `create` once a staging root is in hand: `pip install`
(whose outcome is the environment input `installResult`), then
`to_zipfile` with `not_extension_module` as filter iff extension modules
are excluded. -/
def runBuild (root fqpn : Str) (installResult : Except Err Unit)
    (files : List Str) (exclude_extension_modules : Bool) :
    Except Err ZipResult :=
  match installResult with
  | .error e => .error e
  | .ok _ =>
    let filt := if exclude_extension_modules then not_extension_module
                else fun _ => true
    let z := to_zipfile root fqpn files filt
    match z.error with
    | some e => .error e
    | none => .ok z

/-- The observable behaviour of one `create` call. -/
structure CreateRun : Type where
  madeTempdir : Bool
  rmtreeCalledOn : Option Str
  packageRoot : Str
  outcome : Except Err ZipResult

/-- `create`: pick `automatic_tempdir` when `root` is `None` and
`passthrough` otherwise, build the package inside the managed scope, and
let the manager's exit semantics decide the final outcome. `tempdirPath`
is the directory `mkdtemp` would return, `installResult` the outcome of
the `pip` invocation, `files` the `os.walk` enumeration of the staging
root after installation, and `rmtreeResult` the outcome of the cleanup
deletion. -/
def create (fqpn : Str) (root : Option Str) (tempdirPath : Str)
    (installResult : Except Err Unit) (files : List Str)
    (exclude_extension_modules : Bool) (rmtreeResult : Except Err Unit) :
    CreateRun :=
  match root with
  | some r =>
    let run := passthrough r
      (runBuild r fqpn installResult files exclude_extension_modules)
    { madeTempdir := false
      rmtreeCalledOn := none
      packageRoot := run.tempdir
      outcome := run.outcome }
  | none =>
    let run := automatic_tempdir tempdirPath
      (runBuild tempdirPath fqpn installResult files exclude_extension_modules)
      rmtreeResult
    { madeTempdir := true
      rmtreeCalledOn := if run.rmtreeCalled then some run.tempdir else none
      packageRoot := run.tempdir
      outcome := run.outcome }

/-- Spec-side helper (§3, §8): strip at most one leading separator. -/
def stripSep (q : Str) : Str :=
  if startswith ['/'] q then q.drop 1 else q

/-! ## Helper lemmas about the string primitives -/

theorem startswith_iff {pre s : Str} : startswith pre s = true ↔ pre <+: s :=
  List.isPrefixOf_iff_prefix

theorem endswith_iff {suf s : Str} : endswith suf s = true ↔ suf <:+ s :=
  List.isSuffixOf_iff_suffix

theorem removeFirst_prefix_drop {root s : Str} (h : root <+: s) :
    removeFirst root s = s.drop root.length := by
  cases s with
  | nil =>
    have : root = [] := List.prefix_nil.mp h
    subst this; rfl
  | cons x xs =>
    have hb : root.isPrefixOf (x :: xs) = true :=
      List.isPrefixOf_iff_prefix.mpr h
    simp [removeFirst, hb]

theorem startswith_singleton {c : Char} {s : Str} :
    startswith [c] s = true ↔ s.head? = some c := by
  cases s with
  | nil => simp [startswith, List.isPrefixOf]
  | cons x xs =>
    simp [startswith, List.isPrefixOf]
    exact eq_comm

theorem endswith_singleton {c : Char} {s : Str} :
    endswith [c] s = true ↔ s.getLast? = some c := by
  rw [endswith_iff]
  constructor
  · rintro ⟨t, rfl⟩
    exact List.getLast?_concat t
  · intro h
    obtain ⟨ys, rfl⟩ := List.getLast?_eq_some_iff.mp h
    exact ⟨ys, rfl⟩

theorem rpartitionAux_eq_none {c : Char} {s : Str} :
    rpartitionAux c s = none ↔ c ∉ s := by
  induction s with
  | nil => simp [rpartitionAux]
  | cons x xs ih =>
    simp only [rpartitionAux]
    cases hr : rpartitionAux c xs with
    | some p =>
      have hmem : c ∈ xs := by
        by_contra hn
        rw [ih.mpr hn] at hr
        exact Option.noConfusion hr
      obtain ⟨b, a⟩ := p
      simp [hmem]
    | none =>
      have hnotin : c ∉ xs := ih.mp hr
      by_cases hx : x = c
      · subst hx; simp
      · simp [hx, hnotin, Ne.symm hx]

theorem rpartitionAux_last {c : Char} {b : Str} (a : Str) (hb : c ∉ b) :
    rpartitionAux c (a ++ c :: b) = some (a, b) := by
  induction a with
  | nil =>
    simp only [List.nil_append, rpartitionAux, rpartitionAux_eq_none.mpr hb]
    simp
  | cons x a ih =>
    simp only [List.cons_append, rpartitionAux, List.append_eq, ih]

theorem dot_empty_iff {s : Str} :
    (rpartition '.' s).2.1 = [] ↔ '.' ∉ s := by
  unfold rpartition
  cases hr : rpartitionAux '.' s with
  | none => simp [rpartitionAux_eq_none.mp hr]
  | some p =>
    have hmem : '.' ∈ s := by
      by_contra hn
      rw [rpartitionAux_eq_none.mpr hn] at hr
      exact Option.noConfusion hr
    obtain ⟨b, a⟩ := p
    simp [hmem]

theorem split_fqpn_error_iff (s : Str) :
    (split_fqpn s).isOk = false ↔
      (s = [] ∨ startswith ['.'] s = true ∨ endswith ['.'] s = true ∨
       '.' ∉ s) := by
  have hdot := dot_empty_iff (s := s)
  rcases hr : rpartition '.' s with ⟨mn, dot, cn⟩
  rw [hr] at hdot
  simp only [split_fqpn, hr]
  split
  next hc => simp only [Except.isOk, Except.toBool]; tauto
  next hc =>
    simp only [Except.isOk, Except.toBool, Bool.true_eq_false, false_iff]
    intro h
    apply hc
    rcases h with h | h | h | h
    · exact Or.inl h
    · exact Or.inr (Or.inr (Or.inl h))
    · exact Or.inr (Or.inl h)
    · exact Or.inr (Or.inr (Or.inr (hdot.mpr h)))

theorem intercalate_cons_cons (sep x y : Str) (t : List Str) :
    List.intercalate sep (x :: y :: t) =
      x ++ sep ++ List.intercalate sep (y :: t) := by
  simp [List.intercalate, List.intersperse]

theorem intercalate_append_last (sep c : Str) :
    ∀ (ms : List Str), ms ≠ [] →
      List.intercalate sep (ms ++ [c]) = List.intercalate sep ms ++ sep ++ c
  | [], h => absurd rfl h
  | [m], _ => by simp [List.intercalate, List.intersperse]
  | m :: m' :: t, _ => by
    have ih := intercalate_append_last sep c (m' :: t) (by simp)
    simp only [List.cons_append, intercalate_cons_cons]
    rw [List.cons_append] at ih
    rw [ih]
    simp [List.append_assoc]

theorem head_intercalate_cons (sep m : Str) (t : List Str) :
    ∃ r, List.intercalate sep (m :: t) = m ++ r := by
  cases t with
  | nil => exact ⟨[], by simp [List.intercalate]⟩
  | cons y t =>
    refine ⟨sep ++ List.intercalate sep (y :: t), ?_⟩
    rw [intercalate_cons_cons]
    simp [List.append_assoc]

theorem split_fqpn_valid (ms : List Str) (c : Str)
    (hms : ms ≠ []) (hall : ∀ m ∈ ms, m ≠ [] ∧ '.' ∉ m)
    (hc : c ≠ []) (hcd : '.' ∉ c) :
    split_fqpn (List.intercalate ['.'] (ms ++ [c])) =
      .ok (List.intercalate ['.'] ms, c) := by
  have hfq : List.intercalate ['.'] (ms ++ [c]) =
      List.intercalate ['.'] ms ++ '.' :: c := by
    rw [intercalate_append_last _ _ ms hms]
    simp [List.append_assoc]
  rw [hfq]
  have haux := rpartitionAux_last (c := '.') (b := c)
    (List.intercalate ['.'] ms) hcd
  have hrp : rpartition '.' (List.intercalate ['.'] ms ++ '.' :: c) =
      (List.intercalate ['.'] ms, ['.'], c) := by
    simp [rpartition, haux]
  have hne : List.intercalate ['.'] ms ++ '.' :: c ≠ [] := by simp
  have hstart : ¬ startswith ['.'] (List.intercalate ['.'] ms ++ '.' :: c)
      = true := by
    cases ms with
    | nil => exact absurd rfl hms
    | cons m1 rest =>
      obtain ⟨hm1ne, hm1d⟩ := hall m1 (by simp)
      obtain ⟨r, hAr⟩ := head_intercalate_cons ['.'] m1 rest
      rw [startswith_singleton, hAr]
      cases m1 with
      | nil => exact absurd rfl hm1ne
      | cons ch m1' =>
        simp only [List.cons_append, List.head?_cons]
        intro hsome
        have hch : ch = '.' := by injection hsome
        subst hch
        exact hm1d (List.mem_cons_self _ _)
  have hend : ¬ endswith ['.'] (List.intercalate ['.'] ms ++ '.' :: c)
      = true := by
    rw [endswith_singleton,
        show List.intercalate ['.'] ms ++ '.' :: c =
          (List.intercalate ['.'] ms ++ ['.']) ++ c by simp,
        List.getLast?_append_of_ne_nil _ hc]
    intro hlast
    exact hcd (List.mem_of_mem_getLast? hlast)
  simp only [split_fqpn, hrp]
  rw [if_neg]
  rintro (h | h | h | h)
  · exact hne h
  · exact hend h
  · exact hstart h
  · exact List.noConfusion h

theorem normpath_absolute {p : Str} (h : startswith ['/'] p = true) :
    startswith ['/'] (normpath p) = true := by
  have hp : p ≠ [] := by
    intro he
    subst he
    simp [startswith, List.isPrefixOf] at h
  unfold normpath
  rw [if_neg hp, h]
  simp only [if_true]
  split
  · simp [startswith, List.isPrefixOf]
  · simp [startswith, List.isPrefixOf]

theorem relativize_path_under_root {root p : Str}
    (h : startswith root (normpath p) = true) :
    relativize_path root p = stripSep ((normpath p).drop root.length) := by
  unfold relativize_path stripSep
  simp only [h, if_true, removeFirst_prefix_drop (startswith_iff.mp h)]

theorem relativize_path_outside_root {root p : Str}
    (h : startswith root (normpath p) = false)
    (habs : startswith ['/'] (normpath p) = true) :
    relativize_path root p = (normpath p).drop 1 := by
  unfold relativize_path
  simp only [h, Bool.false_eq_true, if_false, habs, if_true]

theorem getLast?_of_suffix {s f : Str} (h : s <:+ f) (hs : s ≠ []) :
    f.getLast? = s.getLast? := by
  obtain ⟨t, rfl⟩ := h
  exact List.getLast?_append_of_ne_nil t hs

theorem not_extension_module_iff (f : Str) :
    not_extension_module f = false ↔
      (endswith (str ".so") f = true ∨ endswith (str "module.so") f = true) := by
  unfold not_extension_module
  by_cases hany : BINARY_SUFFIXES.any (fun s => endswith s f) = true
  · rw [if_pos hany]
    simpa [BINARY_SUFFIXES] using hany
  · rw [if_neg hany]
    simp only [Bool.true_eq_false, false_iff]
    intro hor
    exact hany (by simp [BINARY_SUFFIXES]; tauto)

theorem not_extension_module_nonbinary {f : Str}
    (h : endswith (str ".py") f = true ∨ endswith (str ".pyc") f = true ∨
         '.' ∉ f) :
    not_extension_module f = true := by
  have hnot : ¬ (BINARY_SUFFIXES.any (fun s => endswith s f) = true) := by
    intro hany
    have hor : endswith (str ".so") f = true ∨
        endswith (str "module.so") f = true := by
      simpa [BINARY_SUFFIXES] using hany
    have hlastO : f.getLast? = some 'o' := by
      rcases hor with hs | hs
      · rw [getLast?_of_suffix (endswith_iff.mp hs) (by decide)]; rfl
      · rw [getLast?_of_suffix (endswith_iff.mp hs) (by decide)]; rfl
    have hdot : '.' ∈ f := by
      rcases hor with hs | hs
      · exact List.IsSuffix.mem (by decide) (endswith_iff.mp hs)
      · exact List.IsSuffix.mem (by decide) (endswith_iff.mp hs)
    rcases h with hpy | hpyc | hnd
    · have hy : f.getLast? = some 'y' := by
        rw [getLast?_of_suffix (endswith_iff.mp hpy) (by decide)]; rfl
      rw [hy] at hlastO
      exact absurd hlastO (by decide)
    · have hcc : f.getLast? = some 'c' := by
        rw [getLast?_of_suffix (endswith_iff.mp hpyc) (by decide)]; rfl
      rw [hcc] at hlastO
      exact absurd hlastO (by decide)
    · exact hnd hdot
  unfold not_extension_module
  rw [if_neg hnot]

/-! ## Claim theorems -/

/-- C1 counterexample: with the invalid FQPN `"nodot"` and one staged
file, `to_zipfile` writes that staged entry to the sink and only then
raises the invalid-FQPN error — partial output IS written, refuting the
claim that validation strictly precedes archive writing. -/
theorem c1_counterexample :
    (to_zipfile (str "r") (str "nodot") [str "r/a.py"]
      (fun _ => true)).error = some (Err.invalidFQPN (str "nodot")) ∧
    (to_zipfile (str "r") (str "nodot") [str "r/a.py"]
      (fun _ => true)).written =
      [ZipEntry.file (str "r/a.py") (str "a.py")] := by
  constructor
  · rfl
  · rfl

/-- C1 (amended): on an invalid FQPN, `to_zipfile` raises the
InvalidFQPNError only after writing every filter-surviving staged entry
and before writing the shim: the sink holds exactly the staged entries
(no shim), so no partial output occurs only when the surviving staged
set is empty. -/
theorem c1_invalid_fqpn_after_staged (root fqpn : Str) (files : List Str)
    (filt : Str → Bool) (e : Err) (h : split_fqpn fqpn = .error e) :
    to_zipfile root fqpn files filt =
      { written := stagedEntries root files filt, error := some e } := by
  have hw : write_lambda_handler_to_fileobj fqpn = .error e := by
    unfold write_lambda_handler_to_fileobj
    rw [h]
  simp only [to_zipfile, hw]

/-- C1 witness: the amended theorem applied to the invalid FQPN
`"nodot"` with two staged files. -/
theorem c1_invalid_fqpn_after_staged_witness :
    to_zipfile (str "r") (str "nodot") [str "r/a.py", str "r/b.py"]
      (fun _ => true) =
      { written := stagedEntries (str "r") [str "r/a.py", str "r/b.py"]
          (fun _ => true),
        error := some (Err.invalidFQPN (str "nodot")) } :=
  c1_invalid_fqpn_after_staged (str "r") (str "nodot")
    [str "r/a.py", str "r/b.py"] (fun _ => true)
    (Err.invalidFQPN (str "nodot")) rfl

/-- C2: `split_fqpn` splits on the last dot — for every valid FQPN
`m1.….mk.c` (k ≥ 1, all components non-empty and dot-free) it returns
`(m1.….mk, c)` — and it fails exactly on inputs that are empty, start
with a dot, end with a dot, or contain no dot. -/
theorem c2_split_fqpn_correct (ms : List Str) (c s : Str)
    (hms : ms ≠ []) (hall : ∀ m ∈ ms, m ≠ [] ∧ '.' ∉ m)
    (hc : c ≠ []) (hcd : '.' ∉ c) :
    split_fqpn (List.intercalate ['.'] (ms ++ [c])) =
      .ok (List.intercalate ['.'] ms, c) ∧
    ((split_fqpn s).isOk = false ↔
      (s = [] ∨ startswith ['.'] s = true ∨ endswith ['.'] s = true ∨
       '.' ∉ s)) :=
  ⟨split_fqpn_valid ms c hms hall hc hcd, split_fqpn_error_iff s⟩

/-- C2 witness: the theorem applied at `["pkg","mod"]`/`"fn"` and the
invalid input `".bad"`. -/
theorem c2_split_fqpn_correct_witness :
    split_fqpn (List.intercalate ['.'] ([str "pkg", str "mod"] ++
      [str "fn"])) = .ok (List.intercalate ['.'] [str "pkg", str "mod"],
        str "fn") ∧
    ((split_fqpn (str ".bad")).isOk = false ↔
      (str ".bad" = [] ∨ startswith ['.'] (str ".bad") = true ∨
       endswith ['.'] (str ".bad") = true ∨ '.' ∉ str ".bad")) :=
  c2_split_fqpn_correct [str "pkg", str "mod"] (str "fn") (str ".bad")
    (by decide) (by decide) (by decide) (by decide)

/-- C3: on a valid FQPN, `to_zipfile` writes exactly the
filter-surviving staged files (in input order) followed by exactly one
shim entry, `countOf(survivingStagedFiles) + 1` entries in total; an
empty staging enumeration yields exactly the shim. -/
theorem c3_to_zipfile_entries (root fqpn : Str) (files : List Str)
    (filt : Str → Bool) (m c : Str) (h : split_fqpn fqpn = .ok (m, c)) :
    to_zipfile root fqpn files filt =
      { written := stagedEntries root files filt ++
          [ZipEntry.strEntry (fqpn_to_lambda_module_name m ++ str ".py")
            (generate_lambda_handler_module m c) none],
        error := none } ∧
    (to_zipfile root fqpn files filt).written.length =
      (files.filter filt).length + 1 ∧
    (files = [] → (to_zipfile root fqpn files filt).written =
      [ZipEntry.strEntry (fqpn_to_lambda_module_name m ++ str ".py")
        (generate_lambda_handler_module m c) none]) := by
  have hw : write_lambda_handler_to_fileobj fqpn =
      .ok (ZipEntry.strEntry (fqpn_to_lambda_module_name m ++ str ".py")
        (generate_lambda_handler_module m c) none) := by
    unfold write_lambda_handler_to_fileobj
    rw [h]
  have hz : to_zipfile root fqpn files filt =
      { written := stagedEntries root files filt ++
          [ZipEntry.strEntry (fqpn_to_lambda_module_name m ++ str ".py")
            (generate_lambda_handler_module m c) none],
        error := none } := by
    simp only [to_zipfile, hw]
  refine ⟨hz, ?_, ?_⟩
  · rw [hz]
    simp [stagedEntries]
  · intro hf
    subst hf
    rw [hz]
    simp [stagedEntries]

/-- C3 witness: one staged file, accept-all filter, FQPN
`"pkg.mod.fn"`. -/
theorem c3_to_zipfile_entries_witness :
    to_zipfile (str "r") (str "pkg.mod.fn") [str "r/a.py"]
      (fun _ => true) =
      { written := stagedEntries (str "r") [str "r/a.py"] (fun _ => true) ++
          [ZipEntry.strEntry
            (fqpn_to_lambda_module_name (str "pkg.mod") ++ str ".py")
            (generate_lambda_handler_module (str "pkg.mod") (str "fn"))
            none],
        error := none } ∧
    (to_zipfile (str "r") (str "pkg.mod.fn") [str "r/a.py"]
      (fun _ => true)).written.length =
      ([str "r/a.py"].filter (fun _ => true)).length + 1 :=
  ⟨(c3_to_zipfile_entries (str "r") (str "pkg.mod.fn") [str "r/a.py"]
      (fun _ => true) (str "pkg.mod") (str "fn") rfl).1,
   (c3_to_zipfile_entries (str "r") (str "pkg.mod.fn") [str "r/a.py"]
      (fun _ => true) (str "pkg.mod") (str "fn") rfl).2.1⟩

/-- C4 counterexample: with staging root `"a"` and path `"a/a/b"` (which
starts with the root), relativizing once gives `"a/b"`, but relativizing
the already-relativized result strips a further leading instance of the
root and gives `"b"` — idempotence fails. -/
theorem c4_counterexample :
    startswith (str "a") (str "a/a/b") = true ∧
    relativize_path (str "a") (str "a/a/b") = str "a/b" ∧
    relativize_path (str "a") (str "a/b") = str "b" ∧
    str "b" ≠ str "a/b" := by decide

/-- C4 (amended): when the normalized path starts with the root,
`relativize_path` strips exactly one leading instance of the root and at
most one following separator from the normalized path; re-relativizing
leaves the result unchanged only under the additional conditions that
the result is normalization-stable and starts with neither the root nor
a separator. -/
theorem c4_relativize_strips_once (root p : Str)
    (h : startswith root (normpath p) = true) :
    relativize_path root p = stripSep ((normpath p).drop root.length) ∧
    (startswith root (relativize_path root p) = false →
     normpath (relativize_path root p) = relativize_path root p →
     startswith ['/'] (relativize_path root p) = false →
     relativize_path root (relativize_path root p) =
       relativize_path root p) := by
  refine ⟨relativize_path_under_root h, ?_⟩
  intro h1 h2 h3
  set q := relativize_path root p with hq
  unfold relativize_path
  simp only [h2, h1, Bool.false_eq_true, if_false, h3]

/-- C4 witness: the amended theorem at root `"/st"` and path
`"/st/pkg/m.py"`, including a case where re-relativization is the
identity. -/
theorem c4_relativize_strips_once_witness :
    relativize_path (str "/st") (str "/st/pkg/m.py") =
      stripSep ((normpath (str "/st/pkg/m.py")).drop (str "/st").length) ∧
    relativize_path (str "/st")
        (relativize_path (str "/st") (str "/st/pkg/m.py")) =
      relativize_path (str "/st") (str "/st/pkg/m.py") :=
  ⟨(c4_relativize_strips_once (str "/st") (str "/st/pkg/m.py")
      (by decide)).1,
   (c4_relativize_strips_once (str "/st") (str "/st/pkg/m.py")
      (by decide)).2 (by decide) (by decide) (by decide)⟩

/-- C5: shim generation is pure and deterministic — for every valid
FQPN splitting into module path `m` and callable `c`, the shim member
name is `m` with every dot replaced by an underscore plus `".py"`, and
the source text is exactly `"from <m> import <c>\n"`. -/
theorem c5_shim_generation (fqpn m c : Str)
    (h : split_fqpn fqpn = .ok (m, c)) :
    write_lambda_handler_to_fileobj fqpn =
      .ok (ZipEntry.strEntry
        (m.map (fun ch => if ch = '.' then '_' else ch) ++ str ".py")
        (str "from " ++ m ++ str " import " ++ c ++ ['\n']) none) := by
  unfold write_lambda_handler_to_fileobj
  rw [h]
  rfl

/-- C5 witness: the shim for FQPN `"pkg.mod.handler"`. -/
theorem c5_shim_generation_witness :
    write_lambda_handler_to_fileobj (str "pkg.mod.handler") =
      .ok (ZipEntry.strEntry
        ((str "pkg.mod").map (fun ch => if ch = '.' then '_' else ch) ++
          str ".py")
        (str "from " ++ str "pkg.mod" ++ str " import " ++ str "handler" ++
          ['\n']) none) :=
  c5_shim_generation (str "pkg.mod.handler") (str "pkg.mod")
    (str "handler") rfl

/-- C6: the classifier reports a native extension iff the filename ends
with one of the registered `BINARY_SUFFIXES`, and every `.py`, `.pyc`,
or dot-free filename is reported as not a native extension. -/
theorem c6_classifier (f : Str) :
    (not_extension_module f = false ↔
      (endswith (str ".so") f = true ∨
       endswith (str "module.so") f = true)) ∧
    ((endswith (str ".py") f = true ∨ endswith (str ".pyc") f = true ∨
      '.' ∉ f) → not_extension_module f = true) :=
  ⟨not_extension_module_iff f, fun h => not_extension_module_nonbinary h⟩

/-- C6 witness: a `.so` file is a native extension, a `.py` file is
not. -/
theorem c6_classifier_witness :
    not_extension_module (str "pkg/x.so") = false ∧
    not_extension_module (str "pkg/y.py") = true :=
  ⟨(c6_classifier (str "pkg/x.so")).1.mpr (by decide),
   (c6_classifier (str "pkg/y.py")).2 (by decide)⟩

/-- C7: evaluating the shim write at the repo's own test fixture FQPN
`"package.module.callable"` shows the entry is written under the name
`"package_module.py"` with NO permission metadata attached (`attr =
none`), while the repo's tests assert a `ZipInfo` named
`"lambda_entry.py"` with `external_attr = 0444 << 16` (read-only): the
code contradicts its tests. -/
theorem c7_shim_metadata :
    write_lambda_handler_to_fileobj (str "package.module.callable") =
      .ok (ZipEntry.strEntry (str "package_module.py")
        (str "from package.module import callable\n") none) := rfl

/-- C8: `create` releases the staging root according to ownership — with
no caller-supplied root it creates a temp directory and always attempts
its recursive deletion, whatever the install/archive outcome; with a
caller-supplied root it uses that root unchanged and never deletes
anything. -/
theorem c8_create_ownership (fqpn tempdirPath r : Str)
    (installResult : Except Err Unit) (files : List Str)
    (exclude_extension_modules : Bool) (rmtreeResult : Except Err Unit) :
    ((create fqpn none tempdirPath installResult files
        exclude_extension_modules rmtreeResult).madeTempdir = true ∧
     (create fqpn none tempdirPath installResult files
        exclude_extension_modules rmtreeResult).rmtreeCalledOn =
       some tempdirPath) ∧
    ((create fqpn (some r) tempdirPath installResult files
        exclude_extension_modules rmtreeResult).madeTempdir = false ∧
     (create fqpn (some r) tempdirPath installResult files
        exclude_extension_modules rmtreeResult).rmtreeCalledOn = none ∧
     (create fqpn (some r) tempdirPath installResult files
        exclude_extension_modules rmtreeResult).packageRoot = r) :=
  ⟨⟨rfl, rfl⟩, rfl, rfl, rfl⟩

/-- C9 counterexample: when a build error (`installError`) is in flight
and the cleanup deletion fails, the outcome that reaches the caller is
the deletion failure, not the original error — the deletion failure IS
escalated and masks the in-flight error. -/
theorem c9_counterexample :
    (automatic_tempdir (str "tmpdir")
      (Except.error Err.installError : Except Err Unit)
      (.error Err.rmtreeError)).outcome = .error Err.rmtreeError ∧
    (automatic_tempdir (str "tmpdir")
      (Except.error Err.installError : Except Err Unit)
      (.error Err.rmtreeError)).outcome ≠ .error Err.installError := by
  refine ⟨rfl, fun hcontra => ?_⟩
  have h2 : (Except.error Err.rmtreeError : Except Err Unit) =
      .error Err.installError := hcontra
  injection h2 with h3
  exact Err.noConfusion h3

/-- C9 (amended): the removal attempt is logged and always made
(guaranteed-cleanup block), but a deletion failure is not caught: it
propagates to the caller in place of any error already in flight; only
when deletion succeeds does the body's outcome propagate. -/
theorem c9_rmtree_failure_escalates {ε α : Type} (tempdir : Str)
    (body : Except ε α) (e2 : ε) :
    (automatic_tempdir tempdir body (.error e2)).outcome = .error e2 ∧
    (automatic_tempdir tempdir body (.ok ())).outcome = body ∧
    (automatic_tempdir tempdir body (.error e2)).rmtreeCalled = true ∧
    (automatic_tempdir tempdir body (.error e2)).logs =
      ["creating temporary directory %r",
       "removing temporary directory %r"] :=
  ⟨rfl, rfl, rfl, rfl⟩

/-- C10: for a path that is absolute but whose normalization does not
start with the staging root, `relativize_path` still strips the single
leading separator: the result is `normpath(p)` with its leading `'/'`
removed. -/
theorem c10_leading_sep_strip_unconditional (root p : Str)
    (habs : startswith ['/'] p = true)
    (h : startswith root (normpath p) = false) :
    relativize_path root p = (normpath p).drop 1 :=
  relativize_path_outside_root h (normpath_absolute habs)

/-- C10 witness: root `"st"`, absolute path `"/etc/x"` not under it. -/
theorem c10_leading_sep_strip_unconditional_witness :
    relativize_path (str "st") (str "/etc/x") =
      (normpath (str "/etc/x")).drop 1 :=
  c10_leading_sep_strip_unconditional (str "st") (str "/etc/x")
    (by decide) (by decide)
